import Mathlib

/-!
Verification of the blackjack repository (`src/server.js`): a shallow
embedding of the score engine (`scorePlayer`), the client game-state
transitions (`stand`'s dealer auto-draw loop and winner comparison), and
the server routes' dealing and round-end updates, together with proofs of
the specified properties.
-/

namespace Blackjack

/-- A card's `value` field: either a numeric value (the external API sends
10s as 0s) or a non-numeric string such as `"KING"`, `"QUEEN"`, `"JACK"`,
`"ACE"`.  `num n` models any value for which JavaScript's `isNaN` is
false, `name s` a value for which it is true. -/
inductive CardValue where
  | num  : Nat → CardValue
  | name : String → CardValue
deriving DecidableEq, Repr

/-- A card as it appears in a pile: `{ value, suit }`. -/
structure Card where
  value : CardValue
  suit  : String
deriving DecidableEq, Repr

/-- Points one card contributes in the scan of `scorePlayer`
(`src/server.js` lines 338-353): the pair is (score increment, aceCount
increment).  Numeric values add themselves with 0 read as 10; `KING`,
`QUEEN`, `JACK` add 10; anything else is the final `else` branch, which
adds 11 and counts an ace. -/
def cardPoints : CardValue → Nat × Nat
  | .num n  => (if n = 0 then 10 else n, 0)
  | .name s =>
      if s = "KING" ∨ s = "QUEEN" ∨ s = "JACK" then (10, 0) else (11, 1)

/-- The `pile.forEach` scan of `scorePlayer`: starting from
`score = 0, aceCount = 0`, each card adds its `cardPoints`. -/
def scanPile (pile : List Card) : Nat × Nat :=
  pile.foldl
    (fun acc c => (acc.1 + (cardPoints c.value).1, acc.2 + (cardPoints c.value).2))
    (0, 0)

/-- The `while (score > 21 && aceCount > 0) { score -= 10; aceCount -= 1 }`
loop of `scorePlayer`, recursion on `aceCount`. -/
def reconcileAces : Nat → Nat → Nat
  | score, 0 => score
  | score, a + 1 => if 21 < score then reconcileAces (score - 10) a else score

/-- `scorePlayer` from `src/server.js` lines 329-362, as a function of the
pile it scores. -/
def scorePlayer (pile : List Card) : Nat :=
  reconcileAces (scanPile pile).1 (scanPile pile).2

/-- Whether a card is counted as an ace by the scan (its `cardPoints`
increments `aceCount`). -/
def isAce (c : Card) : Bool :=
  (cardPoints c.value).2 == 1

/-- The minimum points a card can contribute: 1 for an ace, its fixed
`cardPoints` value otherwise. -/
def minPoints (c : Card) : Nat :=
  if isAce c then 1 else (cardPoints c.value).1

/-- The minimum achievable total of a pile: every ace counted as 1. -/
def minSum (pile : List Card) : Nat :=
  (pile.map minPoints).sum

/-- The number of aces in a pile. -/
def aceCnt (pile : List Card) : Nat :=
  pile.countP (fun c => isAce c)

/-- The total of a pile under an explicit choice of 11 (`true`) or 1
(`false`) for each ace, the choices consumed left to right; non-aces
contribute their fixed points. -/
def totalWith : List Card → List Bool → Nat
  | [], _ => 0
  | c :: cs, bs =>
      if isAce c then
        match bs with
        | [] => 1 + totalWith cs []
        | b :: bs2 => (if b then 11 else 1) + totalWith cs bs2
      else (cardPoints c.value).1 + totalWith cs bs

/-- A total is achievable for a pile when some interpretation of each ace
as 1 or 11 (and every other card at its fixed value) produces it. -/
def Achievable (pile : List Card) (t : Nat) : Prop :=
  ∃ bs : List Bool, bs.length = aceCnt pile ∧ totalWith pile bs = t

/-! ### Spec-side score (for the refinement claim C1)

These definitions follow the spec's words (§4.1), not the code: a card is
one of the data model's values (2-10 numeric with 10 possibly sent as 0,
or `JACK`/`QUEEN`/`KING`/`ACE`); the spec's scan adds face values, 10 for
the named face cards, and 11 (plus an ace count) for `ACE` only. -/

/-- A card value is well formed when it lies in the spec's data model:
a numeric rank 2-10, the value 0 (the oracle's encoding of 10), or one of
the four face-card names. -/
def WellFormedValue : CardValue → Prop
  | .num n  => n = 0 ∨ (2 ≤ n ∧ n ≤ 10)
  | .name s => s = "JACK" ∨ s = "QUEEN" ∨ s = "KING" ∨ s = "ACE"

instance (v : CardValue) : Decidable (WellFormedValue v) := by
  cases v with
  | num n => exact inferInstanceAs (Decidable (_ ∨ _))
  | name s => exact inferInstanceAs (Decidable (_ ∨ _))

/-- Spec-side per-card contribution, from the spec's words: numeric ranks
add their face value (0 standing for 10), `JACK`/`QUEEN`/`KING` add 10,
`ACE` adds 11 and counts an ace.  Values outside the data model (on which
the spec is silent) contribute nothing. -/
def specCardAdd : CardValue → Nat × Nat
  | .num n  => (if n = 0 then 10 else n, 0)
  | .name s =>
      if s = "JACK" ∨ s = "QUEEN" ∨ s = "KING" then (10, 0)
      else if s = "ACE" then (11, 1)
      else (0, 0)

/-- Spec-side scan: fold `specCardAdd` over the pile in order. -/
def specScan (pile : List Card) : Nat × Nat :=
  pile.foldl
    (fun acc c => (acc.1 + (specCardAdd c.value).1, acc.2 + (specCardAdd c.value).2))
    (0, 0)

/-- Spec-side reconciliation, from the spec's words: while the total
exceeds 21 and the ace counter is positive, subtract 10 and decrement. -/
def specAdjust : Nat → Nat → Nat
  | total, 0 => total
  | total, a + 1 => if 21 < total then specAdjust (total - 10) a else total

/-- The spec's score function (§4.1 steps 1-4). -/
def scoreSpec (pile : List Card) : Nat :=
  specAdjust (specScan pile).1 (specScan pile).2

/-! ### Client state machine: stand(), the dealer auto-draw loop -/

/-- The two hand roles. -/
inductive Role where
  | player : Role
  | dealer : Role
deriving DecidableEq, Repr

/-- The winner comparison in `stand` (`src/server.js` lines 315-325):
the player wins exactly when `scores[DEALER] > 21 ||
scores[DEALER] < scores[PLAYER]`, otherwise the dealer wins. -/
def standWinner (playerScore dealerScore : Nat) : Role :=
  if 21 < dealerScore ∨ dealerScore < playerScore then Role.player else Role.dealer

/-- The dealer auto-draw loop of `stand` (`src/server.js` lines 300-311):
while the dealer's score is below 17, draw the next card from the deck
(`stream i`) and append it to the dealer's pile, recomputing the score.
Fuel bounds the number of iterations modelled; `some` is returned exactly
when the loop exits within the given fuel. -/
def dealerLoop (stream : Nat → Card) : Nat → Nat → List Card → Option (List Card)
  | 0, _, pile => if scorePlayer pile < 17 then none else some pile
  | fuel + 1, i, pile =>
      if scorePlayer pile < 17 then dealerLoop stream fuel (i + 1) (pile ++ [stream i])
      else some pile

/-! ### Server routes: the opening deal and the round-end update -/

/-- The two piles of a deck, together with the order in which draws were
applied to them (one entry per completed `drawCardToHand` call). -/
structure DealState where
  playerPile : List Card
  dealerPile : List Card
  draws : List Role
deriving DecidableEq, Repr

/-- `drawCardToHand` (`src/server.js` lines 189-196): draw one card and
append it to the named pile; the draw is recorded in the trace. -/
def drawCardToHand (st : DealState) (c : Card) (hand : Role) : DealState :=
  match hand with
  | Role.player =>
      { st with playerPile := st.playerPile ++ [c], draws := st.draws ++ [Role.player] }
  | Role.dealer =>
      { st with dealerPile := st.dealerPile ++ [c], draws := st.draws ++ [Role.dealer] }

/-- The opening deal of the `getOrCreate` route when the game is new
(`src/server.js` lines 101-104): four awaited `drawCardToHand` calls in
the order player, dealer, player, dealer, each completing before the
next, starting from empty piles of a fresh deck. -/
def getOrCreateDeal (stream : Nat → Card) : DealState :=
  let s0 : DealState := ⟨[], [], []⟩
  let s1 := drawCardToHand s0 (stream 0) Role.player
  let s2 := drawCardToHand s1 (stream 1) Role.dealer
  let s3 := drawCardToHand s2 (stream 2) Role.player
  drawCardToHand s3 (stream 3) Role.dealer

/-- The re-deal of the `endGame` route (`src/server.js` lines 162-165):
the same four awaited `drawCardToHand` calls on the fresh deck. -/
def endGameDeal (stream : Nat → Card) : DealState :=
  let s0 : DealState := ⟨[], [], []⟩
  let s1 := drawCardToHand s0 (stream 0) Role.player
  let s2 := drawCardToHand s1 (stream 1) Role.dealer
  let s3 := drawCardToHand s2 (stream 2) Role.player
  drawCardToHand s3 (stream 3) Role.dealer

/-- A persisted row of the `games` table:
`(gameName, deckId, gamesWon, gamesLost)`. -/
structure GameRow where
  gameName : String
  deckId : String
  gamesWon : Nat
  gamesLost : Nat
deriving DecidableEq, Repr

/-- The single UPDATE of the `endGame` route (`src/server.js` lines
153-161): if the `:winner` route parameter equals `'player'` the row's
`gamesWon` is incremented, otherwise its `gamesLost`; in the same update
`deckId` is rebound to the freshly created deck. -/
def endGameUpdate (row : GameRow) (newDeckId : String) (winner : String) : GameRow :=
  if winner = "player" then
    { row with deckId := newDeckId, gamesWon := row.gamesWon + 1 }
  else
    { row with deckId := newDeckId, gamesLost := row.gamesLost + 1 }

/-! ### Basic facts about `cardPoints` -/

theorem cardPoints_snd (v : CardValue) :
    (cardPoints v).2 = 0 ∨ (cardPoints v).2 = 1 := by
  cases v with
  | num n => left; rfl
  | name s =>
      by_cases h : s = "KING" ∨ s = "QUEEN" ∨ s = "JACK"
      · left; simp [cardPoints, h]
      · right; simp [cardPoints, h]

theorem isAce_points {c : Card} (h : isAce c = true) :
    cardPoints c.value = (11, 1) := by
  cases c with
  | mk v suit =>
    cases v with
    | num n => simp [isAce, cardPoints] at h
    | name s =>
        by_cases hs : s = "KING" ∨ s = "QUEEN" ∨ s = "JACK"
        · simp [isAce, cardPoints, hs] at h
        · simp [cardPoints, hs]

theorem not_isAce_points {c : Card} (h : isAce c = false) :
    (cardPoints c.value).2 = 0 := by
  rcases cardPoints_snd c.value with h0 | h1
  · exact h0
  · simp [isAce, h1] at h

theorem minPoints_pos (c : Card) : 1 ≤ minPoints c := by
  unfold minPoints
  split
  · exact Nat.le_refl 1
  · rename_i h
    cases c with
    | mk v suit =>
      cases v with
      | num n =>
          by_cases hn : n = 0
          · simp [cardPoints, hn]
          · simp [cardPoints, hn]; omega
      | name s =>
          by_cases hs : s = "KING" ∨ s = "QUEEN" ∨ s = "JACK"
          · simp [cardPoints, hs]
          · simp [cardPoints, hs]

/-! ### The scan computes `minSum + 10 * aceCnt` and `aceCnt` -/

theorem card_fst_eq (c : Card) :
    (cardPoints c.value).1 = minPoints c + 10 * (cardPoints c.value).2 := by
  by_cases h : isAce c = true
  · rw [isAce_points h]; simp [minPoints, h]
  · have h' : isAce c = false := by
      cases hh : isAce c
      · rfl
      · exact absurd hh h
    rw [not_isAce_points h']
    simp [minPoints, h']

theorem scanPile_go (pile : List Card) : ∀ a b : Nat,
    pile.foldl
      (fun acc c => (acc.1 + (cardPoints c.value).1, acc.2 + (cardPoints c.value).2))
      (a, b)
    = (a + minSum pile + 10 * aceCnt pile, b + aceCnt pile) := by
  induction pile with
  | nil => intro a b; simp [minSum, aceCnt]
  | cons c cs ih =>
      intro a b
      simp only [List.foldl_cons]
      rw [ih]
      have hfst := card_fst_eq c
      have hsnd : (cardPoints c.value).2 = (if isAce c then 1 else 0) := by
        by_cases h : isAce c = true
        · rw [isAce_points h]; simp [h]
        · have h' : isAce c = false := by
            cases hh : isAce c
            · rfl
            · exact absurd hh h
          rw [not_isAce_points h']; simp [h']
      have hmin : minSum (c :: cs) = minPoints c + minSum cs := by
        simp [minSum]
      have hace : aceCnt (c :: cs) = aceCnt cs + (if isAce c then 1 else 0) := by
        simp [aceCnt, List.countP_cons]
      refine Prod.ext ?_ ?_
      · simp only [hmin, hace, hfst, hsnd]
        by_cases h : isAce c
        · simp [h]; ring
        · simp [h]; ring
      · simp only [hace, hsnd]
        by_cases h : isAce c
        · simp [h]; ring
        · simp [h]

theorem scanPile_eq (pile : List Card) :
    scanPile pile = (minSum pile + 10 * aceCnt pile, aceCnt pile) := by
  have := scanPile_go pile 0 0
  simpa [scanPile] using this

theorem scorePlayer_eq (pile : List Card) :
    scorePlayer pile = reconcileAces (minSum pile + 10 * aceCnt pile) (aceCnt pile) := by
  rw [scorePlayer, scanPile_eq]

/-! ### The while loop returns the greedy optimum -/

theorem reconcile_exists (a : Nat) : ∀ m : Nat,
    ∃ j, j ≤ a ∧ reconcileAces (m + 10 * a) a = m + 10 * j := by
  induction a with
  | zero => intro m; exact ⟨0, Nat.le_refl 0, by simp [reconcileAces]⟩
  | succ a ih =>
      intro m
      by_cases h : 21 < m + 10 * (a + 1)
      · have hstep : m + 10 * (a + 1) - 10 = m + 10 * a := by omega
        rcases ih m with ⟨j, hj, hval⟩
        refine ⟨j, Nat.le_succ_of_le hj, ?_⟩
        rw [reconcileAces, if_pos h, hstep, hval]
      · refine ⟨a + 1, Nat.le_refl _, ?_⟩
        rw [reconcileAces, if_neg h]

theorem reconcile_max (a : Nat) : ∀ m j : Nat, j ≤ a → m + 10 * j ≤ 21 →
    m + 10 * j ≤ reconcileAces (m + 10 * a) a ∧ reconcileAces (m + 10 * a) a ≤ 21 := by
  induction a with
  | zero =>
      intro m j hj h21
      have : j = 0 := Nat.le_zero.mp hj
      subst this
      simp [reconcileAces] at h21 ⊢
      omega
  | succ a ih =>
      intro m j hj h21
      by_cases h : 21 < m + 10 * (a + 1)
      · have hstep : m + 10 * (a + 1) - 10 = m + 10 * a := by omega
        have hja : j ≤ a := by
          rcases Nat.lt_or_ge j (a + 1) with hlt | hge
          · omega
          · exfalso
            have : j = a + 1 := by omega
            subst this
            omega
        have := ih m j hja h21
        rw [reconcileAces, if_pos h, hstep]
        exact this
      · rw [reconcileAces, if_neg h]
        constructor
        · have : 10 * j ≤ 10 * (a + 1) := Nat.mul_le_mul_left 10 hj
          omega
        · omega

theorem reconcile_bust (a : Nat) : ∀ m : Nat, 21 < m →
    reconcileAces (m + 10 * a) a = m := by
  induction a with
  | zero => intro m _; simp [reconcileAces]
  | succ a ih =>
      intro m hm
      have h : 21 < m + 10 * (a + 1) := by omega
      have hstep : m + 10 * (a + 1) - 10 = m + 10 * a := by omega
      rw [reconcileAces, if_pos h, hstep, ih m hm]

theorem reconcile_lower (a : Nat) : ∀ m : Nat,
    m ≤ reconcileAces (m + 10 * a) a := by
  intro m
  rcases reconcile_exists a m with ⟨j, _, hval⟩
  rw [hval]
  omega

/-! ### Achievability is exactly `minSum + 10 * j` for `j ≤ aceCnt` -/

theorem totalWith_eq (pile : List Card) : ∀ bs : List Bool,
    bs.length = aceCnt pile →
    totalWith pile bs = minSum pile + 10 * bs.count true := by
  induction pile with
  | nil =>
      intro bs hbs
      have : bs = [] := List.length_eq_zero.mp (by simpa [aceCnt] using hbs)
      subst this
      simp [totalWith, minSum]
  | cons c cs ih =>
      intro bs hbs
      have hace : aceCnt (c :: cs) = aceCnt cs + (if isAce c then 1 else 0) := by
        simp [aceCnt, List.countP_cons]
      by_cases h : isAce c = true
      · rw [hace, h] at hbs
        simp at hbs
        cases bs with
        | nil => simp at hbs
        | cons b bs2 =>
            have hlen : bs2.length = aceCnt cs := by
              simpa using hbs
            have := ih bs2 hlen
            have hmin : minSum (c :: cs) = 1 + minSum cs := by
              simp [minSum, minPoints, h]
            simp only [totalWith, h, if_true]
            rw [this, hmin]
            cases b with
            | true => simp [List.count_cons]; ring
            | false => simp [List.count_cons]; ring
      · have h' : isAce c = false := by
          cases hh : isAce c
          · rfl
          · exact absurd hh h
        rw [hace, h'] at hbs
        simp at hbs
        have := ih bs hbs
        have hmin : minSum (c :: cs) = (cardPoints c.value).1 + minSum cs := by
          simp [minSum, minPoints, h']
        simp only [totalWith, h', Bool.false_eq_true, if_false]
        rw [this, hmin]
        ring

theorem achievable_iff (pile : List Card) (t : Nat) :
    Achievable pile t ↔ ∃ j, j ≤ aceCnt pile ∧ t = minSum pile + 10 * j := by
  constructor
  · rintro ⟨bs, hlen, hval⟩
    refine ⟨bs.count true, ?_, ?_⟩
    · calc bs.count true ≤ bs.length := List.count_le_length _ _
        _ = aceCnt pile := hlen
    · rw [← hval, totalWith_eq pile bs hlen]
  · rintro ⟨j, hj, ht⟩
    refine ⟨List.replicate j true ++ List.replicate (aceCnt pile - j) false, ?_, ?_⟩
    · simp
      omega
    · rw [totalWith_eq]
      · rw [ht]
        congr 1
        simp [List.count_append, List.count_replicate]
      · simp
        omega

/-! ### Spec-side score agrees with the code on the data model -/

theorem specAdjust_eq_reconcileAces (a : Nat) : ∀ s : Nat,
    specAdjust s a = reconcileAces s a := by
  induction a with
  | zero => intro s; rfl
  | succ a ih =>
      intro s
      rw [specAdjust, reconcileAces]
      by_cases h : 21 < s
      · rw [if_pos h, if_pos h, ih]
      · rw [if_neg h, if_neg h]

theorem specCardAdd_eq {v : CardValue} (h : WellFormedValue v) :
    specCardAdd v = cardPoints v := by
  cases v with
  | num n => rfl
  | name s =>
      rcases h with h | h | h | h <;> subst h <;> rfl

theorem specScan_eq {pile : List Card}
    (h : ∀ c ∈ pile, WellFormedValue c.value) :
    specScan pile = scanPile pile := by
  unfold specScan scanPile
  induction pile with
  | nil => rfl
  | cons c cs ih =>
      have hc : WellFormedValue c.value := h c (List.mem_cons_self c cs)
      have hcs : ∀ c ∈ cs, WellFormedValue c.value :=
        fun x hx => h x (List.mem_cons_of_mem c hx)
      simp only [List.foldl_cons, specCardAdd_eq hc]
      have hgen : ∀ (p : List Card), (∀ c ∈ p, WellFormedValue c.value) →
          ∀ acc : Nat × Nat,
          p.foldl (fun acc c =>
            (acc.1 + (specCardAdd c.value).1, acc.2 + (specCardAdd c.value).2)) acc
          = p.foldl (fun acc c =>
            (acc.1 + (cardPoints c.value).1, acc.2 + (cardPoints c.value).2)) acc := by
        intro p
        induction p with
        | nil => intro _ acc; rfl
        | cons d ds ihd =>
            intro hp acc
            have hd : WellFormedValue d.value := hp d (List.mem_cons_self d ds)
            have hds : ∀ c ∈ ds, WellFormedValue c.value :=
              fun x hx => hp x (List.mem_cons_of_mem d hx)
            simp only [List.foldl_cons, specCardAdd_eq hd]
            exact ihd hds _
      exact hgen cs hcs _

/-! ### Claim theorems -/

/-- C1: for every pile of data-model cards, `scorePlayer` returns exactly
the spec's algorithm: scan the cards in order (numeric ranks at face
value with 0 read as 10, `JACK`/`QUEEN`/`KING` as 10, `ACE` as 11 with an
ace counter), then while the total exceeds 21 and the ace counter is
positive subtract 10 and decrement, returning the resulting total. -/
theorem scorePlayer_refines_spec (pile : List Card)
    (h : ∀ c ∈ pile, WellFormedValue c.value) :
    scorePlayer pile = scoreSpec pile := by
  rw [scorePlayer, scoreSpec, specScan_eq h, specAdjust_eq_reconcileAces]

/-- Witness for C1 at the concrete pile `[ACE of SPADES, 0 of HEARTS,
KING of CLUBS]` (score 21). -/
theorem scorePlayer_refines_spec_witness :
    (∀ c ∈ [Card.mk (CardValue.name "ACE") "SPADES",
            Card.mk (CardValue.num 0) "HEARTS",
            Card.mk (CardValue.name "KING") "CLUBS"], WellFormedValue c.value) ∧
    scorePlayer [Card.mk (CardValue.name "ACE") "SPADES",
                 Card.mk (CardValue.num 0) "HEARTS",
                 Card.mk (CardValue.name "KING") "CLUBS"]
      = scoreSpec [Card.mk (CardValue.name "ACE") "SPADES",
                   Card.mk (CardValue.num 0) "HEARTS",
                   Card.mk (CardValue.name "KING") "CLUBS"] :=
  ⟨by decide, scorePlayer_refines_spec _ (by decide)⟩

/-- C2: for every pile, interpreting each ace as 1 or 11 and every other
card at its fixed value, `scorePlayer` returns the highest achievable
total that is at most 21 when one exists, and otherwise the minimum
achievable total (all aces counted as 1). -/
theorem scorePlayer_optimal (pile : List Card) :
    ((∃ t, Achievable pile t ∧ t ≤ 21) →
        Achievable pile (scorePlayer pile) ∧ scorePlayer pile ≤ 21 ∧
        ∀ t, Achievable pile t → t ≤ 21 → t ≤ scorePlayer pile) ∧
    ((∀ t, Achievable pile t → 21 < t) →
        scorePlayer pile = minSum pile ∧ Achievable pile (minSum pile) ∧
        ∀ t, Achievable pile t → minSum pile ≤ t) := by
  constructor
  · rintro ⟨t, hach, ht⟩
    rcases (achievable_iff pile t).mp hach with ⟨j, hj, hval⟩
    subst hval
    have hmax := reconcile_max (aceCnt pile) (minSum pile) j hj ht
    rw [← scorePlayer_eq] at hmax
    refine ⟨?_, hmax.2, ?_⟩
    · rcases reconcile_exists (aceCnt pile) (minSum pile) with ⟨j2, hj2, hval2⟩
      rw [← scorePlayer_eq] at hval2
      exact (achievable_iff pile _).mpr ⟨j2, hj2, hval2⟩
    · intro t2 hach2 ht2
      rcases (achievable_iff pile t2).mp hach2 with ⟨j2, hj2, hval2⟩
      subst hval2
      have := reconcile_max (aceCnt pile) (minSum pile) j2 hj2 ht2
      rw [← scorePlayer_eq] at this
      exact this.1
  · intro hbust
    have hmin_ach : Achievable pile (minSum pile) :=
      (achievable_iff pile _).mpr ⟨0, Nat.zero_le _, by ring⟩
    have hm : 21 < minSum pile := hbust _ hmin_ach
    refine ⟨?_, hmin_ach, ?_⟩
    · rw [scorePlayer_eq]
      exact reconcile_bust (aceCnt pile) (minSum pile) hm
    · intro t hach
      rcases (achievable_iff pile t).mp hach with ⟨j, _, hval⟩
      subst hval
      omega

/-- Witness for C2 at the concrete pile `[ACE, ACE, 9]`: 21 is
achievable, and the returned score 21 is achievable, at most 21, and
maximal among achievable totals ≤ 21. -/
theorem scorePlayer_optimal_witness :
    (∃ t, Achievable [Card.mk (CardValue.name "ACE") "SPADES",
                      Card.mk (CardValue.name "ACE") "HEARTS",
                      Card.mk (CardValue.num 9) "CLUBS"] t ∧ t ≤ 21) ∧
    (Achievable [Card.mk (CardValue.name "ACE") "SPADES",
                 Card.mk (CardValue.name "ACE") "HEARTS",
                 Card.mk (CardValue.num 9) "CLUBS"]
       (scorePlayer [Card.mk (CardValue.name "ACE") "SPADES",
                     Card.mk (CardValue.name "ACE") "HEARTS",
                     Card.mk (CardValue.num 9) "CLUBS"]) ∧
     scorePlayer [Card.mk (CardValue.name "ACE") "SPADES",
                  Card.mk (CardValue.name "ACE") "HEARTS",
                  Card.mk (CardValue.num 9) "CLUBS"] ≤ 21 ∧
     ∀ t, Achievable [Card.mk (CardValue.name "ACE") "SPADES",
                      Card.mk (CardValue.name "ACE") "HEARTS",
                      Card.mk (CardValue.num 9) "CLUBS"] t → t ≤ 21 →
       t ≤ scorePlayer [Card.mk (CardValue.name "ACE") "SPADES",
                        Card.mk (CardValue.name "ACE") "HEARTS",
                        Card.mk (CardValue.num 9) "CLUBS"]) := by
  exact ⟨⟨21, ⟨[true, false], by decide, by decide⟩, by decide⟩,
    (scorePlayer_optimal _).1 ⟨21, ⟨[true, false], by decide, by decide⟩, by decide⟩⟩

/-- C3: `scorePlayer` is invariant under permutation of the pile: the
result depends only on the multiset of cards, not their order. -/
theorem scorePlayer_perm (p1 p2 : List Card) (h : p1.Perm p2) :
    scorePlayer p1 = scorePlayer p2 := by
  have hmin : minSum p1 = minSum p2 := (h.map minPoints).sum_eq
  have hace : aceCnt p1 = aceCnt p2 := h.countP_eq _
  rw [scorePlayer_eq, scorePlayer_eq, hmin, hace]

/-- Witness for C3: swapping `[KING, ACE]` to `[ACE, KING]` keeps the
score. -/
theorem scorePlayer_perm_witness :
    scorePlayer [Card.mk (CardValue.name "KING") "HEARTS",
                 Card.mk (CardValue.name "ACE") "SPADES"]
      = scorePlayer [Card.mk (CardValue.name "ACE") "SPADES",
                     Card.mk (CardValue.name "KING") "HEARTS"] :=
  scorePlayer_perm _ _
    (List.Perm.swap (Card.mk (CardValue.name "ACE") "SPADES")
      (Card.mk (CardValue.name "KING") "HEARTS") [])

/-- C4: when the dealer's turn resolves, the player is declared winner
exactly when the dealer's score exceeds 21 or is strictly below the
player's; an exact tie with the dealer not busted is a dealer win. -/
theorem standWinner_spec (ps ds : Nat) :
    (standWinner ps ds = Role.player ↔ (21 < ds ∨ ds < ps)) ∧
    (standWinner ps ds = Role.dealer ↔ ¬(21 < ds ∨ ds < ps)) ∧
    (ds = ps → ds ≤ 21 → standWinner ps ds = Role.dealer) := by
  unfold standWinner
  by_cases h : 21 < ds ∨ ds < ps
  · rw [if_pos h]
    refine ⟨by simp [h], by simp [h], ?_⟩
    intro heq hle
    omega
  · rw [if_neg h]
    exact ⟨by simp [h], by simp [h], fun _ _ => rfl⟩

/-- Witness for C4: a 20-20 tie resolves as a dealer win. -/
theorem standWinner_spec_witness : standWinner 20 20 = Role.dealer :=
  (standWinner_spec 20 20).2.2 rfl (by decide)

/-- C5: whenever the dealer auto-draw loop terminates (returns `some`
final pile within its fuel), the dealer's score on that final pile is at
least 17. -/
theorem dealerLoop_post (stream : Nat → Card) (fuel : Nat) :
    ∀ (i : Nat) (pile out : List Card),
      dealerLoop stream fuel i pile = some out → 17 ≤ scorePlayer out := by
  induction fuel with
  | zero =>
      intro i pile out h
      rw [dealerLoop] at h
      by_cases hs : scorePlayer pile < 17
      · rw [if_pos hs] at h
        exact absurd h (by simp)
      · rw [if_neg hs] at h
        have : pile = out := by
          simpa using h
        subst this
        omega
  | succ fuel ih =>
      intro i pile out h
      rw [dealerLoop] at h
      by_cases hs : scorePlayer pile < 17
      · rw [if_pos hs] at h
        exact ih (i + 1) (pile ++ [stream i]) out h
      · rw [if_neg hs] at h
        have : pile = out := by
          simpa using h
        subst this
        omega

/-- Witness for C5: from an empty dealer pile, a deck of kings makes the
loop stop after two draws with score 20 ≥ 17. -/
theorem dealerLoop_post_witness :
    dealerLoop (fun _ => Card.mk (CardValue.name "KING") "HEARTS") 2 0 []
        = some [Card.mk (CardValue.name "KING") "HEARTS",
                Card.mk (CardValue.name "KING") "HEARTS"] ∧
    17 ≤ scorePlayer [Card.mk (CardValue.name "KING") "HEARTS",
                      Card.mk (CardValue.name "KING") "HEARTS"] :=
  ⟨by decide,
   dealerLoop_post (fun _ => Card.mk (CardValue.name "KING") "HEARTS") 2 0 [] _
     (by decide)⟩

/-- C6 counterexample: appending a 5 to `[ACE, QUEEN]` (score 21) drops
the score to 16, so appending a card can strictly decrease the score. -/
theorem score_append_can_decrease :
    scorePlayer ([Card.mk (CardValue.name "ACE") "SPADES",
                  Card.mk (CardValue.name "QUEEN") "HEARTS"]
                 ++ [Card.mk (CardValue.num 5) "CLUBS"])
      < scorePlayer [Card.mk (CardValue.name "ACE") "SPADES",
                     Card.mk (CardValue.name "QUEEN") "HEARTS"] := by
  decide

/-- C6 amended: appending a card always adds its minimum points (at least
1) to the minimum achievable total, and the new score always strictly
exceeds the old pile's minimum total; in particular, when the old score
is the hard total (no ace counted as 11) appending strictly increases the
score.  The reconciled score itself can decrease when a soft ace is
downgraded. -/
theorem score_append_mono (pile : List Card) (c : Card) :
    minSum (pile ++ [c]) = minSum pile + minPoints c ∧
    1 ≤ minPoints c ∧
    minSum pile < scorePlayer (pile ++ [c]) ∧
    (scorePlayer pile = minSum pile →
      scorePlayer pile < scorePlayer (pile ++ [c])) := by
  have happ : minSum (pile ++ [c]) = minSum pile + minPoints c := by
    simp [minSum]
  have hpos := minPoints_pos c
  have hlow : minSum (pile ++ [c]) ≤ scorePlayer (pile ++ [c]) := by
    rw [scorePlayer_eq]
    exact reconcile_lower _ _
  refine ⟨happ, hpos, ?_, ?_⟩
  · omega
  · intro hhard
    omega

/-- Witness for C6 amended, at the hard pile `[KING]` and the card
`QUEEN`: the score strictly increases from 10 to 20. -/
theorem score_append_mono_witness :
    minSum [Card.mk (CardValue.name "KING") "HEARTS"]
        < scorePlayer ([Card.mk (CardValue.name "KING") "HEARTS"]
            ++ [Card.mk (CardValue.name "QUEEN") "SPADES"]) ∧
    scorePlayer [Card.mk (CardValue.name "KING") "HEARTS"]
        < scorePlayer ([Card.mk (CardValue.name "KING") "HEARTS"]
            ++ [Card.mk (CardValue.name "QUEEN") "SPADES"]) :=
  ⟨(score_append_mono [Card.mk (CardValue.name "KING") "HEARTS"]
      (Card.mk (CardValue.name "QUEEN") "SPADES")).2.2.1,
   (score_append_mono [Card.mk (CardValue.name "KING") "HEARTS"]
      (Card.mk (CardValue.name "QUEEN") "SPADES")).2.2.2 (by decide)⟩

/-- C7: both a fresh game's opening deal (`getOrCreate` on a new name)
and the `endGame` re-deal perform exactly four sequential draws in the
order player, dealer, player, dealer, leaving each pile with exactly the
two cards drawn for it, in draw order. -/
theorem openingDeal_spec (stream : Nat → Card) :
    getOrCreateDeal stream =
      { playerPile := [stream 0, stream 2],
        dealerPile := [stream 1, stream 3],
        draws := [Role.player, Role.dealer, Role.player, Role.dealer] } ∧
    endGameDeal stream = getOrCreateDeal stream ∧
    (getOrCreateDeal stream).playerPile.length = 2 ∧
    (getOrCreateDeal stream).dealerPile.length = 2 := by
  exact ⟨rfl, rfl, rfl, rfl⟩

/-- C8: the round-end update rebinds `deckId` to the fresh deck and
increments exactly one counter — `gamesWon` when the winner parameter is
`player`, `gamesLost` otherwise — never both, never neither. -/
theorem endGameUpdate_spec (row : GameRow) (d w : String) :
    (endGameUpdate row d w).deckId = d ∧
    (endGameUpdate row d w).gameName = row.gameName ∧
    (w = "player" →
      (endGameUpdate row d w).gamesWon = row.gamesWon + 1 ∧
      (endGameUpdate row d w).gamesLost = row.gamesLost) ∧
    (w ≠ "player" →
      (endGameUpdate row d w).gamesLost = row.gamesLost + 1 ∧
      (endGameUpdate row d w).gamesWon = row.gamesWon) ∧
    (endGameUpdate row d w).gamesWon + (endGameUpdate row d w).gamesLost
      = row.gamesWon + row.gamesLost + 1 := by
  unfold endGameUpdate
  by_cases h : w = "player"
  · rw [if_pos h]
    refine ⟨rfl, rfl, fun _ => ⟨rfl, rfl⟩, fun hne => absurd h hne, ?_⟩
    dsimp only
    omega
  · rw [if_neg h]
    refine ⟨rfl, rfl, fun heq => absurd heq h, fun _ => ⟨rfl, rfl⟩, ?_⟩
    dsimp only
    omega

/-- Witness for C8: with winner `player`, `gamesWon` goes from 3 to 4 and
`gamesLost` stays 4. -/
theorem endGameUpdate_spec_witness :
    (endGameUpdate (GameRow.mk "g" "old" 3 4) "fresh" "player").gamesWon = 3 + 1 ∧
    (endGameUpdate (GameRow.mk "g" "old" 3 4) "fresh" "player").gamesLost = 4 :=
  (endGameUpdate_spec (GameRow.mk "g" "old" 3 4) "fresh" "player").2.2.1 rfl

/-- C9: a card of value 0 is scored exactly like a card of value 10:
replacing one by the other (same suit, same position) leaves the score
unchanged, and each contributes exactly 10 to the scanned total. -/
theorem zero_scores_as_ten (l1 l2 : List Card) (st : String) :
    scorePlayer (l1 ++ Card.mk (CardValue.num 0) st :: l2)
      = scorePlayer (l1 ++ Card.mk (CardValue.num 10) st :: l2) ∧
    (scanPile (l1 ++ Card.mk (CardValue.num 0) st :: l2)).1
      = (scanPile (l1 ++ l2)).1 + 10 ∧
    (scanPile (l1 ++ Card.mk (CardValue.num 10) st :: l2)).1
      = (scanPile (l1 ++ l2)).1 + 10 := by
  have hmin0 : minPoints (Card.mk (CardValue.num 0) st) = 10 := rfl
  have hmin10 : minPoints (Card.mk (CardValue.num 10) st) = 10 := rfl
  have hace0 : isAce (Card.mk (CardValue.num 0) st) = false := rfl
  have hace10 : isAce (Card.mk (CardValue.num 10) st) = false := rfl
  have hminsum : ∀ c : Card, minSum (l1 ++ c :: l2) = minSum l1 + minPoints c + minSum l2 := by
    intro c
    simp [minSum]
    ring
  have hacecnt : ∀ c : Card, isAce c = false → aceCnt (l1 ++ c :: l2) = aceCnt (l1 ++ l2) := by
    intro c hc
    simp [aceCnt, List.countP_cons, List.countP_append, hc]
  have hminsum2 : minSum (l1 ++ l2) = minSum l1 + minSum l2 := by
    simp [minSum]
  refine ⟨?_, ?_, ?_⟩
  · rw [scorePlayer_eq, scorePlayer_eq, hminsum, hminsum, hmin0, hmin10,
      hacecnt _ hace0, hacecnt _ hace10]
  · rw [scanPile_eq, scanPile_eq]
    simp only
    rw [hminsum, hmin0, hacecnt _ hace0, hminsum2]
    ring
  · rw [scanPile_eq, scanPile_eq]
    simp only
    rw [hminsum, hmin10, hacecnt _ hace10, hminsum2]
    ring

/-- C10: any card value that is neither numeric nor `KING`, `QUEEN` or
`JACK` falls into the final `else` branch: it is worth `(11, 1)` — 11
points and one countable (downgradable) ace — and the pile is scored
exactly as if the card were an `ACE`. -/
theorem unknownValue_scored_as_ace (s : String)
    (h1 : s ≠ "KING") (h2 : s ≠ "QUEEN") (h3 : s ≠ "JACK") :
    cardPoints (CardValue.name s) = (11, 1) ∧
    ∀ (l1 l2 : List Card) (st : String),
      scorePlayer (l1 ++ Card.mk (CardValue.name s) st :: l2)
        = scorePlayer (l1 ++ Card.mk (CardValue.name "ACE") st :: l2) := by
  have hpts : cardPoints (CardValue.name s) = (11, 1) := by
    simp [cardPoints, h1, h2, h3]
  refine ⟨hpts, ?_⟩
  intro l1 l2 st
  have haceS : isAce (Card.mk (CardValue.name s) st) = true := by
    simp [isAce, hpts]
  have haceA : isAce (Card.mk (CardValue.name "ACE") st) = true := rfl
  have hminS : minPoints (Card.mk (CardValue.name s) st) = 1 := by
    simp [minPoints, haceS]
  have hminA : minPoints (Card.mk (CardValue.name "ACE") st) = 1 := rfl
  have hminsum : ∀ c : Card, minSum (l1 ++ c :: l2) = minSum l1 + minPoints c + minSum l2 := by
    intro c
    simp [minSum]
    ring
  have hacecnt : ∀ c : Card, isAce c = true →
      aceCnt (l1 ++ c :: l2) = aceCnt (l1 ++ l2) + 1 := by
    intro c hc
    simp [aceCnt, List.countP_cons, List.countP_append, hc]
    ring
  rw [scorePlayer_eq, scorePlayer_eq, hminsum, hminsum, hminS, hminA,
    hacecnt _ haceS, hacecnt _ haceA]

/-- Witness for C10: the malformed value `"JOKER"` is worth `(11, 1)` and
a pile holding it scores like the same pile holding an `ACE`. -/
theorem unknownValue_scored_as_ace_witness :
    cardPoints (CardValue.name "JOKER") = (11, 1) ∧
    scorePlayer ([Card.mk (CardValue.name "KING") "HEARTS"]
        ++ Card.mk (CardValue.name "JOKER") "RED" :: [])
      = scorePlayer ([Card.mk (CardValue.name "KING") "HEARTS"]
        ++ Card.mk (CardValue.name "ACE") "RED" :: []) :=
  ⟨(unknownValue_scored_as_ace "JOKER" (by decide) (by decide) (by decide)).1,
   (unknownValue_scored_as_ace "JOKER" (by decide) (by decide) (by decide)).2
     [Card.mk (CardValue.name "KING") "HEARTS"] [] "RED"⟩

end Blackjack
